import Mathlib

/-!
# Verification of the rnote-llm batch conversion pipeline

Shallow embedding of the core of `src/main.rs` (and the CLI glue in
`src/cli.rs`): the depth-bounded directory walker `DirWalker`, the job
planner `Job::from_folder`, the per-job pipeline `execute_job`, the
bounded-concurrency executor built from
`stream::iter(jobs).map(...).buffer_unordered(10).try_collect()`, and the
top-level `main` wrapper around `run`.

Paths are modelled as lists of components (`List String`); the filesystem
seen by the walker is a tree of `FsEntry`; the walker state is the stack
of directory cursors (`ReadDir` values) of the source, with the top of the
stack at the head of the list.
-/

set_option autoImplicit false

namespace RnoteLlm

/-- A directory entry as classified by `DirEntry::file_type()` in
`DirWalker::next`: a regular file, a directory (with its entries, in the
order the OS yields them), or anything else (symlink, special file). -/
inductive FsEntry where
  | file (name : String)
  | dir (name : String) (entries : List FsEntry)
  | special (name : String)

mutual

/-- Weight of one entry, used as a termination measure for the walker:
a directory weighs its frame overhead plus its contents. -/
def FsEntry.size : FsEntry → Nat
  | .file _ => 1
  | .special _ => 1
  | .dir _ es => 2 + FsEntry.sizeList es

/-- Total weight of a list of entries. -/
def FsEntry.sizeList : List FsEntry → Nat
  | [] => 0
  | e :: es => FsEntry.size e + FsEntry.sizeList es

end

/-- One `ReadDir` cursor on the walker's stack: the path of the directory
being enumerated and the entries not yet consumed. -/
structure Frame where
  dirPath : List String
  entries : List FsEntry

/-- The `DirWalker` struct of `src/main.rs`: the depth bound and the stack
of open directory cursors. The head of `path_stack` is the top of the
stack (the `last_mut` of the Rust `Vec`). -/
structure DirWalker where
  max_depth : Nat
  path_stack : List Frame

/-- Termination measure: one unit per stack frame plus the weight of all
entries still enumerable from the stack. -/
def stackWeight (s : List Frame) : Nat :=
  (s.map (fun f => 1 + FsEntry.sizeList f.entries)).sum

/-- Result of one iteration of the body of `DirWalker::next`: yield a file
path, continue with a new state (tail call `self.next()`), or end of the
sequence (`last_mut` returned `None`). -/
inductive StepRes where
  | yield (p : List String) (w : DirWalker)
  | cont (w : DirWalker)
  | done

/-- One iteration of `DirWalker::next` (`src/main.rs:160-179`):
inspect the top cursor; an exhausted cursor is popped; a regular file is
yielded; a directory entry is pushed when `path_stack.len() <= max_depth`;
every other entry — a directory beyond the depth bound or a special
entry — falls into the `_` arm, which pops the top cursor. -/
def DirWalker.step : DirWalker → StepRes
  | ⟨_, []⟩ => .done
  | ⟨d, ⟨_, []⟩ :: rest⟩ => .cont ⟨d, rest⟩
  | ⟨d, ⟨p, .file n :: es⟩ :: rest⟩ => .yield (p ++ [n]) ⟨d, ⟨p, es⟩ :: rest⟩
  | ⟨d, ⟨p, .dir n sub :: es⟩ :: rest⟩ =>
      if rest.length + 1 ≤ d then
        .cont ⟨d, ⟨p ++ [n], sub⟩ :: ⟨p, es⟩ :: rest⟩
      else
        .cont ⟨d, rest⟩
  | ⟨d, ⟨_, .special _ :: _⟩ :: rest⟩ => .cont ⟨d, rest⟩

theorem step_cont_weight {w w' : DirWalker} (h : w.step = .cont w') :
    stackWeight w'.path_stack < stackWeight w.path_stack := by
  rcases w with ⟨d, stack⟩
  match stack with
  | [] => simp [DirWalker.step] at h
  | ⟨p, []⟩ :: rest =>
    simp only [DirWalker.step, StepRes.cont.injEq] at h
    subst h
    simp only [stackWeight, List.map_cons, List.sum_cons, FsEntry.sizeList]
    omega
  | ⟨p, .file n :: es⟩ :: rest => simp [DirWalker.step] at h
  | ⟨p, .dir n sub :: es⟩ :: rest =>
    simp only [DirWalker.step] at h
    split at h <;> cases h <;>
      simp only [stackWeight, List.map_cons, List.sum_cons, FsEntry.sizeList,
        FsEntry.size] <;> omega
  | ⟨p, .special n :: es⟩ :: rest =>
    simp only [DirWalker.step, StepRes.cont.injEq] at h
    subst h
    simp only [stackWeight, List.map_cons, List.sum_cons, FsEntry.sizeList, FsEntry.size]
    omega

theorem step_yield_weight {w : DirWalker} {p : List String} {w' : DirWalker}
    (h : w.step = .yield p w') :
    stackWeight w'.path_stack < stackWeight w.path_stack := by
  rcases w with ⟨d, stack⟩
  match stack with
  | [] => simp [DirWalker.step] at h
  | ⟨q, []⟩ :: rest => simp [DirWalker.step] at h
  | ⟨q, .file n :: es⟩ :: rest =>
    simp only [DirWalker.step, StepRes.yield.injEq] at h
    obtain ⟨-, rfl⟩ := h
    simp only [stackWeight, List.map_cons, List.sum_cons, FsEntry.sizeList, FsEntry.size]
    omega
  | ⟨q, .dir n sub :: es⟩ :: rest =>
    simp only [DirWalker.step] at h
    split at h <;> cases h
  | ⟨q, .special n :: es⟩ :: rest => simp [DirWalker.step] at h

/-- `DirWalker::next`: iterate `step` until a path is yielded or the stack
empties. Returns the yielded path and the walker state after the call. -/
def DirWalker.next (w : DirWalker) : Option (List String × DirWalker) :=
  match h : w.step with
  | .yield p w' => some (p, w')
  | .cont w' => w'.next
  | .done => none
termination_by stackWeight w.path_stack
decreasing_by exact step_cont_weight h

theorem DirWalker.next_eq_yield {w : DirWalker} {p : List String} {w' : DirWalker}
    (hs : w.step = .yield p w') : w.next = some (p, w') := by
  rw [DirWalker.next]
  split
  · rename_i p1 w1 heq
    rw [hs] at heq
    cases heq
    rfl
  · rename_i w1 heq
    rw [hs] at heq
    cases heq
  · rename_i heq
    rw [hs] at heq
    cases heq

theorem DirWalker.next_eq_cont {w w' : DirWalker}
    (hs : w.step = .cont w') : w.next = w'.next := by
  rw [DirWalker.next]
  split
  · rename_i p1 w1 heq
    rw [hs] at heq
    cases heq
  · rename_i w1 heq
    rw [hs] at heq
    cases heq
    rfl
  · rename_i heq
    rw [hs] at heq
    cases heq

theorem DirWalker.next_eq_done {w : DirWalker}
    (hs : w.step = .done) : w.next = none := by
  rw [DirWalker.next]
  split
  · rename_i p1 w1 heq
    rw [hs] at heq
    cases heq
  · rename_i w1 heq
    rw [hs] at heq
    cases heq
  · rfl

theorem next_yield_weight {w : DirWalker} {p : List String} {w' : DirWalker}
    (h : w.next = some (p, w')) :
    stackWeight w'.path_stack < stackWeight w.path_stack := by
  induction w using DirWalker.next.induct generalizing p w' with
  | case1 w0 p1 w1 hs =>
    rw [DirWalker.next_eq_yield hs] at h
    cases h
    exact step_yield_weight hs
  | case2 w0 w1 hs ih =>
    rw [DirWalker.next_eq_cont hs] at h
    exact Nat.lt_trans (ih h) (step_cont_weight hs)
  | case3 w0 hs =>
    rw [DirWalker.next_eq_done hs] at h
    cases h

/-- The full enumeration: repeatedly call `next` and collect the yielded
paths, in order. This is the sequence the `for file in readdir` loop of
`Job::from_folder` consumes. -/
def DirWalker.walk (w : DirWalker) : List (List String) :=
  match h : w.next with
  | some (p, w') => p :: w'.walk
  | none => []
termination_by stackWeight w.path_stack
decreasing_by exact next_yield_weight h

theorem DirWalker.walk_eq_cons {w : DirWalker} {p : List String} {w' : DirWalker}
    (hn : w.next = some (p, w')) : w.walk = p :: w'.walk := by
  rw [DirWalker.walk]
  split
  · rename_i p1 w1 heq
    rw [hn] at heq
    cases heq
    rfl
  · rename_i heq
    rw [hn] at heq
    cases heq

theorem DirWalker.walk_eq_nil {w : DirWalker}
    (hn : w.next = none) : w.walk = [] := by
  rw [DirWalker.walk]
  split
  · rename_i p1 w1 heq
    rw [hn] at heq
    cases heq
  · rfl

/-- `DirWalker::new` (`src/main.rs:146-154`): one cursor over the root's
entries. `root` is the (canonical) path of the root directory and `es`
its entries. -/
def DirWalker.new (root : List String) (es : List FsEntry) (max_depth : Nat) :
    DirWalker :=
  ⟨max_depth, [⟨root, es⟩]⟩

/-- Fuel-indexed twin of `walk`, structurally recursive so that concrete
walks can be evaluated by the kernel. Agrees with `walk` for sufficient
fuel (`walkFuel_eq_walk`). -/
def DirWalker.walkFuel : Nat → DirWalker → List (List String)
  | 0, _ => []
  | fuel + 1, w =>
    match w.step with
    | .yield p w' => p :: DirWalker.walkFuel fuel w'
    | .cont w' => DirWalker.walkFuel fuel w'
    | .done => []

theorem walk_eq_of_next_eq {w w' : DirWalker} (h : w.next = w'.next) :
    w.walk = w'.walk := by
  cases h2 : w'.next with
  | some pw =>
    rw [DirWalker.walk_eq_cons (h.trans h2), DirWalker.walk_eq_cons h2]
  | none =>
    rw [DirWalker.walk_eq_nil (h.trans h2), DirWalker.walk_eq_nil h2]

theorem stackWeight_pos {f : Frame} {rest : List Frame} :
    0 < stackWeight (f :: rest) := by
  simp only [stackWeight, List.map_cons, List.sum_cons]
  omega

theorem walkFuel_eq_walk :
    ∀ (fuel : Nat) (w : DirWalker), stackWeight w.path_stack ≤ fuel →
      DirWalker.walkFuel fuel w = w.walk := by
  intro fuel
  induction fuel with
  | zero =>
    intro w hw
    rcases w with ⟨d, stack⟩
    cases stack with
    | nil =>
      have hd : DirWalker.step ⟨d, []⟩ = .done := rfl
      rw [DirWalker.walkFuel, DirWalker.walk_eq_nil (DirWalker.next_eq_done hd)]
    | cons f rest =>
      have := @stackWeight_pos f rest
      simp only at hw
      omega
  | succ fuel ih =>
    intro w hw
    cases hs : w.step with
    | yield p w' =>
      simp only [DirWalker.walkFuel, hs]
      rw [DirWalker.walk_eq_cons (DirWalker.next_eq_yield hs),
        ih w' (Nat.le_of_lt_succ (Nat.lt_of_lt_of_le (step_yield_weight hs) hw))]
    | cont w' =>
      simp only [DirWalker.walkFuel, hs]
      rw [walk_eq_of_next_eq (DirWalker.next_eq_cont hs),
        ih w' (Nat.le_of_lt_succ (Nat.lt_of_lt_of_le (step_cont_weight hs) hw))]
    | done =>
      simp only [DirWalker.walkFuel, hs]
      rw [DirWalker.walk_eq_nil (DirWalker.next_eq_done hs)]

/-! ## Walker invariants

`goodStack root stack` says the stack is well-formed over the walked root:
the frame at distance `k` from the bottom enumerates a directory whose
path extends `root` by exactly `k` components (the bottom frame is the
root itself). It holds for `DirWalker.new` and is preserved by `step`. -/

/-- Stack well-formedness relative to the walked root. The head of the
list is the top of the stack, so the head's path extends `root` by as
many components as there are frames below it. -/
def goodStack (root : List String) : List Frame → Prop
  | [] => True
  | f :: rest =>
      (∃ ext : List String, f.dirPath = root ++ ext ∧ ext.length = rest.length) ∧
      goodStack root rest

/-- The walker invariant: a well-formed stack whose height never exceeds
`max_depth + 1`. -/
def WalkerInv (root : List String) (w : DirWalker) : Prop :=
  goodStack root w.path_stack ∧ w.path_stack.length ≤ w.max_depth + 1

theorem walkerInv_new (root : List String) (es : List FsEntry) (D : Nat) :
    WalkerInv root (DirWalker.new root es D) := by
  refine ⟨⟨⟨[], by simp, by simp⟩, trivial⟩, by simp [DirWalker.new]⟩

theorem step_cont_inv {root : List String} {w w' : DirWalker}
    (hi : WalkerInv root w) (h : w.step = .cont w') :
    WalkerInv root w' ∧ w'.max_depth = w.max_depth := by
  rcases w with ⟨d, stack⟩
  match stack with
  | [] => simp [DirWalker.step] at h
  | ⟨p, []⟩ :: rest =>
    simp only [DirWalker.step, StepRes.cont.injEq] at h
    subst h
    exact ⟨⟨hi.1.2, Nat.le_of_succ_le (by simpa using hi.2)⟩, rfl⟩
  | ⟨p, .file n :: es⟩ :: rest => simp [DirWalker.step] at h
  | ⟨p, .dir n sub :: es⟩ :: rest =>
    simp only [DirWalker.step] at h
    split at h
    · cases h
      rcases hi with ⟨⟨⟨ext, hext, hlen⟩, hrest⟩, hbound⟩
      have hext' : p = root ++ ext := hext
      refine ⟨⟨⟨⟨ext ++ [n], by simp [hext'], by simp [hlen]⟩,
        ⟨ext, hext, hlen⟩, hrest⟩, ?_⟩, rfl⟩
      simp only [List.length_cons]
      omega
    · cases h
      exact ⟨⟨hi.1.2, Nat.le_of_succ_le (by simpa using hi.2)⟩, rfl⟩
  | ⟨p, .special n :: es⟩ :: rest =>
    simp only [DirWalker.step, StepRes.cont.injEq] at h
    subst h
    exact ⟨⟨hi.1.2, Nat.le_of_succ_le (by simpa using hi.2)⟩, rfl⟩

theorem step_yield_inv {root : List String} {w : DirWalker} {p : List String}
    {w' : DirWalker} (hi : WalkerInv root w) (h : w.step = .yield p w') :
    (WalkerInv root w' ∧ w'.max_depth = w.max_depth) ∧
      ∃ ext : List String, p = root ++ ext ∧ ext ≠ [] ∧
        ext.length ≤ w.max_depth + 1 := by
  rcases w with ⟨d, stack⟩
  match stack with
  | [] => simp [DirWalker.step] at h
  | ⟨q, []⟩ :: rest => simp [DirWalker.step] at h
  | ⟨q, .file n :: es⟩ :: rest =>
    simp only [DirWalker.step, StepRes.yield.injEq] at h
    obtain ⟨rfl, rfl⟩ := h
    rcases hi with ⟨⟨⟨ext, hext, hlen⟩, hrest⟩, hbound⟩
    have hext' : q = root ++ ext := hext
    refine ⟨⟨⟨⟨⟨ext, hext, hlen⟩, hrest⟩, hbound⟩, rfl⟩,
      ⟨ext ++ [n], by simp [hext'], by simp, ?_⟩⟩
    simp only [List.length_cons] at hbound
    simp only [List.length_append, List.length_singleton, hlen]
    omega
  | ⟨q, .dir n sub :: es⟩ :: rest =>
    simp only [DirWalker.step] at h
    split at h <;> cases h
  | ⟨q, .special n :: es⟩ :: rest => simp [DirWalker.step] at h

theorem next_inv {root : List String} {w : DirWalker} {p : List String}
    {w' : DirWalker} (hi : WalkerInv root w) (h : w.next = some (p, w')) :
    (WalkerInv root w' ∧ w'.max_depth = w.max_depth) ∧
      ∃ ext : List String, p = root ++ ext ∧ ext ≠ [] ∧
        ext.length ≤ w.max_depth + 1 := by
  induction w using DirWalker.next.induct generalizing p w' with
  | case1 w0 p1 w1 hs =>
    rw [DirWalker.next_eq_yield hs] at h
    cases h
    exact step_yield_inv hi hs
  | case2 w0 w1 hs ih =>
    rw [DirWalker.next_eq_cont hs] at h
    obtain ⟨hinv, hd⟩ := step_cont_inv hi hs
    obtain ⟨⟨hinv', hd'⟩, ext, hext, hne, hlen⟩ := ih hinv h
    exact ⟨⟨hinv', hd'.trans hd⟩, ext, hext, hne, hd ▸ hlen⟩
  | case3 w0 hs =>
    rw [DirWalker.next_eq_done hs] at h
    cases h

theorem walk_mem {root : List String} {w : DirWalker} {p : List String}
    (hi : WalkerInv root w) (hp : p ∈ w.walk) :
    ∃ ext : List String, p = root ++ ext ∧ ext ≠ [] ∧
      ext.length ≤ w.max_depth + 1 := by
  induction w using DirWalker.walk.induct with
  | case1 w0 p1 w1 hn ih =>
    rw [DirWalker.walk_eq_cons hn] at hp
    obtain ⟨⟨hinv, hd⟩, ext, hext, hne, hlen⟩ := next_inv hi hn
    rcases List.mem_cons.mp hp with rfl | hp'
    · exact ⟨ext, hext, hne, hlen⟩
    · obtain ⟨ext', hext', hne', hlen'⟩ := ih hinv hp'
      exact ⟨ext', hext', hne', hd ▸ hlen'⟩
  | case2 w0 hn =>
    rw [DirWalker.walk_eq_nil hn] at hp
    cases hp

/-- Reachability of walker states through individual iterations of the
`DirWalker::next` loop body. Every intermediate state of the enumeration
— including the states inside one `next` call — is reachable. -/
inductive ReachesW : DirWalker → DirWalker → Prop
  | refl (w : DirWalker) : ReachesW w w
  | yield {w : DirWalker} {p : List String} {w' w'' : DirWalker} :
      w.step = .yield p w' → ReachesW w' w'' → ReachesW w w''
  | cont {w w' w'' : DirWalker} :
      w.step = .cont w' → ReachesW w' w'' → ReachesW w w''

theorem reachesW_inv {root : List String} {w w' : DirWalker}
    (hr : ReachesW w w') (hi : WalkerInv root w) :
    WalkerInv root w' ∧ w'.max_depth = w.max_depth := by
  induction hr with
  | refl w0 => exact ⟨hi, rfl⟩
  | yield hs _ ih =>
    obtain ⟨⟨hinv, hd⟩, -⟩ := step_yield_inv hi hs
    obtain ⟨hinv', hd'⟩ := ih hinv
    exact ⟨hinv', hd'.trans hd⟩
  | cont hs _ ih =>
    obtain ⟨hinv, hd⟩ := step_cont_inv hi hs
    obtain ⟨hinv', hd'⟩ := ih hinv
    exact ⟨hinv', hd'.trans hd⟩

/-! ## Extension rewriting

`PathBuf::set_extension("md")` on one path component: the extension is
what follows the last `.` of the file name; a name with no `.`, or whose
only `.` is its leading character, has no extension and gets `.md`
appended; otherwise the extension is replaced. -/

/-- `set_extension("md")` on the characters of one file name. -/
def setMdChars (l : List Char) : List Char :=
  match l.reverse.dropWhile (fun c => c != '.') with
  | [] => l ++ ['.', 'm', 'd']
  | _ :: rest =>
      if rest.isEmpty then l ++ ['.', 'm', 'd']
      else rest.reverse ++ ['.', 'm', 'd']

/-- `set_extension("md")` on one path component. -/
def setMdExt (s : String) : String :=
  String.mk (setMdChars s.data)

/-- `output_file.set_extension("md")` (`src/main.rs:222`) rewrites the
final component of the path; a path with no components is unchanged. -/
def pathSetMd : List String → List String
  | [] => []
  | [x] => [setMdExt x]
  | x :: y :: xs => x :: pathSetMd (y :: xs)

theorem pathSetMd_append (xs : List String) {l : List String} (h : l ≠ []) :
    pathSetMd (xs ++ l) = xs ++ pathSetMd l := by
  induction xs with
  | nil => rfl
  | cons x xs ih =>
    cases hx : xs ++ l with
    | nil =>
      rcases List.append_eq_nil.mp hx with ⟨-, rfl⟩
      exact absurd rfl h
    | cons y ys =>
      simp only [List.cons_append, hx, pathSetMd]
      rw [← hx, ih]

/-! ## Job planning (`Job::from_folder`, `src/main.rs:201-232`) -/

/-- A planned job: the source file path and the mirrored destination path
(the `input_file` and `output_file` fields of `Job`; the progress bar is
presentation only and is not modelled). -/
structure Job where
  input_file : List String
  output_file : List String
  deriving DecidableEq

/-- Errors surfaced while planning a batch. -/
inductive PlanError where
  /-- `std::fs::create_dir(output_folder)` failed, e.g. because the
  destination root already exists. -/
  | createDirFailed
  /-- Canonicalizing the source root, or opening it for reading
  (`DirWalker::new`), failed. -/
  | canonicalizeFailed
  deriving DecidableEq

/-- The filesystem state `Job::from_folder` interacts with: whether the
destination root already exists, and the source root — `some` entries if
it can be canonicalized and read, `none` otherwise — together with the
canonical forms of the two roots. -/
structure PlanState where
  destExists : Bool
  source : Option (List FsEntry)
  sourceCanon : List String
  destCanon : List String

/-- The destination path computed for one discovered file
(`src/main.rs:217-222`): skip as many leading components as the canonical
source root has, join the remainder onto the destination root, and
rewrite the extension of the final component to `md`. -/
def destOf (input_folder output_folder : List String) (file : List String) :
    List String :=
  pathSetMd (output_folder ++ file.drop input_folder.length)

/-- `Job::from_folder` (`src/main.rs:201-232`): create the destination
root (first, failing if it already exists), canonicalize and open the
source root, walk it with the depth bound, and build one pending job per
discovered file. Returns the filesystem state it leaves behind together
with the result. -/
def Job.from_folder (st : PlanState) (max_depth : Nat) :
    PlanState × Except PlanError (List Job) :=
  if st.destExists then (st, .error .createDirFailed)
  else
    let st' := { st with destExists := true }
    match st.source with
    | none => (st', .error .canonicalizeFailed)
    | some entries =>
        let files := (DirWalker.new st.sourceCanon entries max_depth).walk
        (st', .ok (files.map fun f => ⟨f, destOf st.sourceCanon st.destCanon f⟩))

/-! ## The per-job pipeline (`execute_job`, `src/main.rs:82-132`) -/

/-- Collaborator invocations observable during one `execute_job` call:
the rnote rendering engine (`export_rnote_file`), the remote Gemini
conversion (`convert_note`), and persisting the output
(`create_dir_all` + `fs::write`). -/
inductive CallEvent where
  | render
  | convert
  | persist
  deriving DecidableEq

/-- How the environment answers the external calls of one job: whether
`try_exists(output_file)` reports the destination as present, and the
outcomes of rendering, remote conversion, and persisting. -/
structure JobEnv where
  destExists : Bool
  renderResult : Except String Unit
  convertResult : Except String Unit
  persistResult : Except String Unit

/-- `execute_job` (`src/main.rs:82-132`): when `skip_existing` is set and
the destination exists, finish immediately; otherwise render, convert
remotely, and persist, stopping at the first failing stage. Returns the
job's outcome and the list of collaborator calls made, in order. -/
def execute_job (skip_existing : Bool) (env : JobEnv) (job : Job) :
    Except String Unit × List CallEvent :=
  if skip_existing && env.destExists then (.ok (), [])
  else
    match env.renderResult with
    | .error e => (.error e, [.render])
    | .ok _ =>
      match env.convertResult with
      | .error e => (.error e, [.render, .convert])
      | .ok _ =>
        match env.persistResult with
        | .error e => (.error e, [.render, .convert, .persist])
        | .ok _ => (.ok (), [.render, .convert, .persist])

/-! ## The batch executor (`run`, `src/main.rs:258-262`)

`futures::stream::iter(jobs).map(execute_job ...).buffer_unordered(10)
.try_collect()` on a current-thread runtime: jobs are admitted in list
order into a pool of at most 10 concurrently polled pipelines; completed
pipelines leave the pool in completion order; `try_collect` returns the
first error it sees, after which nothing further is admitted.

The model makes the nondeterministic completion order explicit as a
schedule: at each completion step, the head of the schedule (mod the pool
size) picks which in-flight pipeline finishes next. -/

instance exceptStringUnitDecEq : DecidableEq (Except String Unit) := fun a b =>
  match a, b with
  | .ok (), .ok () => isTrue rfl
  | .error x, .error y =>
      if h : x = y then isTrue (by rw [h])
      else isFalse (by intro hc; cases hc; exact h rfl)
  | .ok (), .error _ => isFalse (by intro hc; cases hc)
  | .error _, .ok () => isFalse (by intro hc; cases hc)

/-- One job as the executor sees it: the job value and the outcome its
pipeline produces when run to completion. -/
structure JobSpec where
  job : Job
  result : Except String Unit
  deriving DecidableEq

/-- Executor state: `running pending inflight started log sched` — jobs
not yet admitted (in list order), the pool of in-flight pipelines, every
job admitted so far (in admission order), the successfully completed
pipelines (in completion order), and the remaining schedule. `finished`
is terminal and records the result of `try_collect`. -/
inductive ExecState where
  | running (pending inflight started log : List JobSpec) (sched : List Nat)
  | finished (res : Except String Unit) (started log : List JobSpec)
  deriving DecidableEq

/-- The concurrency window width used by `run`: `buffer_unordered(10)`. -/
def concurrencyLimit : Nat := 10

/-- Pick and finish one in-flight pipeline, as scheduled. A failing
pipeline ends the whole run with its error (`try_collect`); a successful
one leaves the pool. -/
def completeOne (pending : List JobSpec) (j0 : JobSpec) (js : List JobSpec)
    (started log : List JobSpec) (sched : List Nat) : ExecState :=
  let inflight := j0 :: js
  let i : Fin inflight.length :=
    ⟨sched.headD 0 % inflight.length, Nat.mod_lt _ (Nat.succ_pos _)⟩
  let j := inflight.get i
  match j.result with
  | .error e => .finished (.error e) started log
  | .ok _ =>
      .running pending (inflight.eraseIdx i.val) started (log ++ [j]) sched.tail

/-- One scheduling step of the executor: admit the next pending job
whenever the pool is below `K` (the stream is polled first while there is
capacity), otherwise complete one in-flight pipeline; when nothing is
pending or in flight the run finishes successfully. `finished` is
absorbing. -/
def execStep (K : Nat) : ExecState → ExecState
  | .finished res started log => .finished res started log
  | .running (j :: rest) inflight started log sched =>
      if inflight.length < K then
        .running rest (inflight ++ [j]) (started ++ [j]) log sched
      else
        match inflight with
        | [] => .finished (.ok ()) started log
        | j0 :: js => completeOne (j :: rest) j0 js started log sched
  | .running [] [] started log _ => .finished (.ok ()) started log
  | .running [] (j0 :: js) started log sched => completeOne [] j0 js started log sched

/-- The initial executor state of `run`: all planned jobs pending, an
empty pool. -/
def runInit (jobs : List JobSpec) (sched : List Nat) : ExecState :=
  .running jobs [] [] [] sched

/-- States reachable by iterating `execStep`. -/
inductive ExecReaches (K : Nat) : ExecState → ExecState → Prop
  | refl (s : ExecState) : ExecReaches K s s
  | step {s s' : ExecState} : ExecReaches K s s' → ExecReaches K s (execStep K s')

/-- Jobs admitted so far. -/
def ExecState.startedJobs : ExecState → List JobSpec
  | .running _ _ started _ _ => started
  | .finished _ started _ => started

/-- Pool occupancy. -/
def ExecState.inflightCount : ExecState → Nat
  | .running _ inflight _ _ _ => inflight.length
  | .finished _ _ _ => 0

/-- Executor invariant over the planned job list `jobs`:
admission is FIFO (`started ++ pending = jobs` while running, `started`
a prefix of `jobs` once finished), the pool never exceeds `K`, the pool
holds only admitted jobs, the success log holds only successful admitted
pipelines, and a failure result carries the error of an admitted job
while every pipeline logged before it succeeded. -/
def ExecInv (K : Nat) (jobs : List JobSpec) : ExecState → Prop
  | .running pending inflight started log _ =>
      started ++ pending = jobs ∧
      inflight.length ≤ K ∧
      (∀ j ∈ inflight, j ∈ started) ∧
      (∀ j ∈ log, j ∈ started ∧ j.result = .ok ())
  | .finished res started log =>
      started <+: jobs ∧
      (∀ j ∈ log, j ∈ started ∧ j.result = .ok ()) ∧
      (∀ e, res = .error e → ∃ j ∈ started, j.result = .error e)

theorem execInv_init (K : Nat) (jobs : List JobSpec) (sched : List Nat) :
    ExecInv K jobs (runInit jobs sched) := by
  refine ⟨rfl, by simp, by simp, by simp⟩

theorem completeOne_inv {K : Nat} {jobs : List JobSpec}
    {pending : List JobSpec} {j0 : JobSpec} {js : List JobSpec}
    {started log : List JobSpec} {sched : List Nat}
    (hi : ExecInv K jobs (.running pending (j0 :: js) started log sched)) :
    ExecInv K jobs (completeOne pending j0 js started log sched) := by
  obtain ⟨hfifo, hlen, hin, hlog⟩ := hi
  rw [completeOne]
  set i : Fin (j0 :: js).length :=
    ⟨sched.headD 0 % (j0 :: js).length, Nat.mod_lt _ (Nat.succ_pos _)⟩ with hi_def
  set j := (j0 :: js).get i with hj_def
  have hjmem : j ∈ j0 :: js := List.get_mem _ _ _
  cases hres : j.result with
  | error e =>
    refine ⟨⟨pending, hfifo⟩, hlog, ?_⟩
    intro e' he'
    cases he'
    exact ⟨j, hin j hjmem, hres⟩
  | ok u =>
    cases u
    refine ⟨hfifo, ?_, ?_, ?_⟩
    · calc ((j0 :: js).eraseIdx i.val).length ≤ (j0 :: js).length :=
            List.length_eraseIdx_le _ _
        _ ≤ K := hlen
    · intro j' hj'
      exact hin j' (List.mem_of_mem_eraseIdx hj')
    · intro j' hj'
      rcases List.mem_append.mp hj' with h | h
      · exact hlog j' h
      · rcases List.mem_singleton.mp h with rfl
        exact ⟨hin _ hjmem, hres⟩

theorem execStep_inv {K : Nat} {jobs : List JobSpec} {s : ExecState}
    (hi : ExecInv K jobs s) : ExecInv K jobs (execStep K s) := by
  match s with
  | .finished res started log => exact hi
  | .running (j :: rest) inflight started log sched =>
    obtain ⟨hfifo, hlen, hin, hlog⟩ := hi
    simp only [execStep]
    split
    · refine ⟨by simpa using hfifo, by simpa using Nat.succ_le_of_lt (by assumption), ?_, ?_⟩
      · intro j' hj'
        rcases List.mem_append.mp hj' with h | h
        · exact List.mem_append_left _ (hin j' h)
        · exact List.mem_append_right _ h
      · intro j' hj'
        obtain ⟨h1, h2⟩ := hlog j' hj'
        exact ⟨List.mem_append_left _ h1, h2⟩
    · match inflight, hlen, hin with
      | [], _, _ =>
        exact ⟨⟨j :: rest, hfifo⟩, hlog, by intro e he; cases he⟩
      | j0 :: js, hlen, hin =>
        exact completeOne_inv ⟨hfifo, hlen, hin, hlog⟩
  | .running [] [] started log sched =>
    obtain ⟨hfifo, hlen, hin, hlog⟩ := hi
    simp only [execStep]
    exact ⟨⟨[], hfifo⟩, hlog, by intro e he; cases he⟩
  | .running [] (j0 :: js) started log sched =>
    exact completeOne_inv hi

theorem execReaches_inv {K : Nat} {jobs : List JobSpec} {s s' : ExecState}
    (hr : ExecReaches K s s') (hi : ExecInv K jobs s) : ExecInv K jobs s' := by
  induction hr with
  | refl => exact hi
  | step _ ih => exact execStep_inv ih

/-- `finished` states are absorbing: once `try_collect` has returned, no
further job is admitted or run. -/
theorem finished_absorbing {K : Nat} {res : Except String Unit}
    {started log : List JobSpec} {s' : ExecState}
    (hr : ExecReaches K (.finished res started log) s') :
    s' = .finished res started log := by
  induction hr with
  | refl => rfl
  | step _ ih => rw [ih]; rfl

/-! ## The process entry point (`main`, `src/main.rs:267-273`) -/

/-- `main`: await `run`, log the error if there is one, and return `()`.
Since `main` returns unit and no path calls `process::exit`, the process
exit status is 0 whether or not `run` failed. The model returns the exit
status together with the error lines logged. -/
def mainModel (runResult : Except String Unit) : Nat × List String :=
  match runResult with
  | .ok _ => (0, [])
  | .error e => (0, [e])

/-! ## Claim theorems -/

/-- Claim C1, counterexample: in a root holding a special entry followed
by a regular file, with a generous depth bound, the walker yields
nothing at all — the file after the skipped entry is not yielded, so the
enumeration of the remaining entries does not continue unaffected. -/
theorem walker_drops_siblings_after_special :
    (DirWalker.new ["r"] [.special "s", .file "a"] 5).walk = [] ∧
    ["r", "a"] ∉ (DirWalker.new ["r"] [.special "s", .file "a"] 5).walk := by
  have h : DirWalker.walkFuel 10 (DirWalker.new ["r"] [.special "s", .file "a"] 5)
      = (DirWalker.new ["r"] [.special "s", .file "a"] 5).walk :=
    walkFuel_eq_walk 10 _ (by decide)
  refine ⟨?_, ?_⟩ <;> rw [← h] <;> decide

/-- Claim C1 as amended: when `DirWalker::next` meets an entry that is
neither a regular file nor a directory within the depth bound (a special
entry, or a directory with the stack already at the bound), the `_` arm
pops the whole current directory cursor: the entry is skipped without
yielding or pushing, but the remaining entries of the current directory
are abandoned with it, and enumeration resumes in the parent cursor. -/
theorem skip_pops_cursor (d : Nat) (p : List String) (n : String)
    (sub : List FsEntry) (es : List FsEntry) (rest : List Frame) :
    (DirWalker.step ⟨d, ⟨p, .special n :: es⟩ :: rest⟩ = .cont ⟨d, rest⟩) ∧
    (d < rest.length + 1 →
      DirWalker.step ⟨d, ⟨p, .dir n sub :: es⟩ :: rest⟩ = .cont ⟨d, rest⟩) := by
  refine ⟨rfl, fun hd => ?_⟩
  simp only [DirWalker.step]
  rw [if_neg (by omega)]

/-- Witness for the amended C1: a beyond-depth directory entry pops the
root cursor, dropping the regular file `y` queued behind it. -/
theorem skip_pops_cursor_w :
    DirWalker.step ⟨0, [⟨["r"], [.dir "d" [.file "x"], .file "y"]⟩]⟩
      = .cont ⟨0, []⟩ :=
  (skip_pops_cursor 0 ["r"] "d" [.file "x"] [.file "y"] []).2 (by decide)

/-- Claim C2: every file path yielded by a walk with bound `D` extends
the walked root by a nonempty suffix with at most `D` directory levels
before the file name; and for `D = 0` the cursor stack never holds more
than the root cursor, i.e. no subdirectory is ever opened (a `read_dir`
of a subdirectory happens exactly at a push). -/
theorem walker_depth_bound (root : List String) (es : List FsEntry) (D : Nat) :
    (∀ p ∈ (DirWalker.new root es D).walk,
      ∃ ext : List String, p = root ++ ext ∧ ext ≠ [] ∧ ext.length - 1 ≤ D) ∧
    (D = 0 → ∀ s : DirWalker, ReachesW (DirWalker.new root es D) s →
      s.path_stack.length ≤ 1) := by
  constructor
  · intro p hp
    obtain ⟨ext, hext, hne, hlen⟩ := walk_mem (walkerInv_new root es D) hp
    have hlen' : ext.length ≤ D + 1 := by simpa [DirWalker.new] using hlen
    exact ⟨ext, hext, hne, by omega⟩
  · intro hD s hs
    obtain ⟨⟨-, hbound⟩, hdep⟩ := reachesW_inv hs (walkerInv_new root es D)
    have hd : s.max_depth = D := by simpa [DirWalker.new] using hdep
    omega

/-- Witness for C2: the single file of a depth-0 walk is directly inside
the root, and the initial state's stack height is 1. -/
theorem walker_depth_bound_w :
    (∃ ext : List String, ["r", "a"] = ["r"] ++ ext ∧ ext ≠ [] ∧
      ext.length - 1 ≤ 0) ∧
    (DirWalker.new ["r"] [.file "a"] 0).path_stack.length ≤ 1 :=
  ⟨(walker_depth_bound ["r"] [.file "a"] 0).1 ["r", "a"] (by
      rw [← walkFuel_eq_walk 10 _ (by decide)]
      decide),
    (walker_depth_bound ["r"] [.file "a"] 0).2 rfl _ (ReachesW.refl _)⟩

/-- Claim C3, counterexample: one planner run over a root holding
`a.rnote` and `a.txt` discovers two distinct source files and maps both
to the destination `out/a.md` — the destination mapping is not injective
over the discovered files. -/
theorem dest_map_collision :
    ∃ a b : Job,
      (Job.from_folder ⟨false, some [.file "a.rnote", .file "a.txt"], ["r"], ["out"]⟩ 1).2
          = .ok [a, b] ∧
        a.input_file ≠ b.input_file ∧ a.output_file = b.output_file := by
  have hw : (DirWalker.new ["r"] [.file "a.rnote", .file "a.txt"] 1).walk
      = [["r", "a.rnote"], ["r", "a.txt"]] := by
    rw [← walkFuel_eq_walk 10 _ (by decide)]
    decide
  refine ⟨⟨["r", "a.rnote"], ["out", "a.md"]⟩, ⟨["r", "a.txt"], ["out", "a.md"]⟩,
    ?_, by decide, rfl⟩
  simp only [Job.from_folder, Bool.false_eq_true, if_false, hw]
  rfl

/-- Claim C3 as amended: the destination mapping is injective only up to
extension rewriting — two files discovered by the same walker run whose
root-relative paths still differ after the final extension is rewritten
to `md` get distinct destinations (whereas sources differing only in
their extension collide, as the counterexample shows). -/
theorem dest_inj_of_md_rel_ne (root out : List String) (es : List FsEntry)
    (D : Nat) (a b : List String)
    (ha : a ∈ (DirWalker.new root es D).walk)
    (hb : b ∈ (DirWalker.new root es D).walk)
    (hmd : pathSetMd (a.drop root.length) ≠ pathSetMd (b.drop root.length)) :
    destOf root out a ≠ destOf root out b := by
  obtain ⟨ea, hea, hna, -⟩ := walk_mem (walkerInv_new root es D) ha
  obtain ⟨eb, heb, hnb, -⟩ := walk_mem (walkerInv_new root es D) hb
  subst hea
  subst heb
  rw [List.drop_left] at hmd
  rw [List.drop_left] at hmd
  intro hc
  apply hmd
  rw [destOf, destOf, List.drop_left, List.drop_left,
    pathSetMd_append out hna, pathSetMd_append out hnb] at hc
  exact List.append_cancel_left hc

/-- Witness for the amended C3: `r/a.rnote` and `r/b.txt` are both
discovered and their destinations differ. -/
theorem dest_inj_of_md_rel_ne_w :
    destOf ["r"] ["out"] ["r", "a.rnote"] ≠ destOf ["r"] ["out"] ["r", "b.txt"] :=
  dest_inj_of_md_rel_ne ["r"] ["out"] [.file "a.rnote", .file "b.txt"] 1
    ["r", "a.rnote"] ["r", "b.txt"]
    (by rw [← walkFuel_eq_walk 10 _ (by decide)]; decide)
    (by rw [← walkFuel_eq_walk 10 _ (by decide)]; decide)
    (by decide)

/-- Claim C4: every job planned by `Job::from_folder` has a destination
equal to the destination root joined with the input made relative to the
canonical source root, with the final component's extension rewritten to
`md`. -/
theorem from_folder_dest_spec (st : PlanState) (D : Nat) (jobs : List Job)
    (h : (Job.from_folder st D).2 = .ok jobs) :
    ∀ j ∈ jobs, ∃ rel : List String, rel ≠ [] ∧
      j.input_file = st.sourceCanon ++ rel ∧
      j.output_file = st.destCanon ++ pathSetMd rel := by
  intro j hj
  by_cases hd : st.destExists
  · simp [Job.from_folder, hd] at h
  · cases hsrc : st.source with
    | none => simp [Job.from_folder, hd, hsrc] at h
    | some es =>
      simp only [Job.from_folder, hd, Bool.false_eq_true, if_false, hsrc,
        Except.ok.injEq] at h
      subst h
      obtain ⟨f, hf, rfl⟩ := List.mem_map.mp hj
      obtain ⟨rel, hrel, hne, -⟩ := walk_mem (walkerInv_new st.sourceCanon es D) hf
      subst hrel
      refine ⟨rel, hne, rfl, ?_⟩
      simp only [destOf, List.drop_left]
      exact pathSetMd_append st.destCanon hne

/-- Witness for C4: in a planned batch over `r` with destination `out`,
the job for `r/sub/b.rnote` is mirrored to `out/sub/b.md`. -/
theorem from_folder_dest_spec_w :
    ∃ rel : List String, rel ≠ [] ∧
      (Job.mk ["r", "sub", "b.rnote"] ["out", "sub", "b.md"]).input_file
        = ["r"] ++ rel ∧
      (Job.mk ["r", "sub", "b.rnote"] ["out", "sub", "b.md"]).output_file
        = ["out"] ++ pathSetMd rel := by
  have hw : (DirWalker.new ["r"] [.dir "sub" [.file "b.rnote"]] 1).walk
      = [["r", "sub", "b.rnote"]] := by
    rw [← walkFuel_eq_walk 20 _ (by decide)]
    decide
  refine from_folder_dest_spec
    ⟨false, some [.dir "sub" [.file "b.rnote"]], ["r"], ["out"]⟩ 1
    [⟨["r", "sub", "b.rnote"], ["out", "sub", "b.md"]⟩] ?_ _ (by decide)
  simp only [Job.from_folder, Bool.false_eq_true, if_false, hw]
  rfl

/-- Claim C5: when a batch run finishes with an error, that error is the
result of an admitted job, every pipeline completed before it succeeded
(the returned error is the first failure in completion order), the
admitted jobs form a prefix of the planned list, and the finished state
is absorbing — jobs not yet admitted into the window at the moment of
the failure are never started. -/
theorem run_fail_fast (jobs : List JobSpec) (sched : List Nat) (e : String)
    (started log : List JobSpec)
    (h : ExecReaches concurrencyLimit (runInit jobs sched)
      (.finished (.error e) started log)) :
    (∃ j ∈ started, j.result = .error e) ∧
    (∀ j ∈ log, j.result = .ok ()) ∧
    started <+: jobs ∧
    (∀ s' : ExecState,
      ExecReaches concurrencyLimit (.finished (.error e) started log) s' →
        s'.startedJobs = started) := by
  obtain ⟨hsp, hlog, herr⟩ :=
    execReaches_inv h (execInv_init concurrencyLimit jobs sched)
  refine ⟨herr e rfl, fun j hj => (hlog j hj).2, hsp, fun s' hs' => ?_⟩
  rw [finished_absorbing hs']
  rfl

/-- Witness for C5: a one-job batch whose pipeline fails with `boom`
finishes with that error, produced by the admitted job. -/
theorem run_fail_fast_w :
    ∃ j ∈ [JobSpec.mk ⟨["a"], ["b"]⟩ (.error "boom")],
      j.result = .error "boom" :=
  (run_fail_fast [JobSpec.mk ⟨["a"], ["b"]⟩ (.error "boom")] [] "boom"
    [JobSpec.mk ⟨["a"], ["b"]⟩ (.error "boom")] []
    (ExecReaches.step (ExecReaches.step (ExecReaches.refl _)))).1

/-- Claim C9: at every instant reachable during a batch run the pool of
in-flight pipelines holds at most `concurrencyLimit = 10` jobs, and the
admitted jobs always form a prefix of the planned list in order —
admission into the window is FIFO. -/
theorem run_concurrency_bound (jobs : List JobSpec) (sched : List Nat)
    (s : ExecState)
    (h : ExecReaches concurrencyLimit (runInit jobs sched) s) :
    s.inflightCount ≤ concurrencyLimit ∧ s.startedJobs <+: jobs := by
  have hinv := execReaches_inv h (execInv_init concurrencyLimit jobs sched)
  cases s with
  | running pending inflight started log sched' =>
    obtain ⟨hfifo, hlen, -, -⟩ := hinv
    exact ⟨hlen, ⟨pending, hfifo⟩⟩
  | finished res started log =>
    obtain ⟨hsp, -, -⟩ := hinv
    exact ⟨Nat.zero_le _, hsp⟩

/-- Witness for C9: after admitting the single planned job, the pool
holds one pipeline and the admitted jobs are a prefix of the plan. -/
theorem run_concurrency_bound_w :
    (ExecState.running [] [JobSpec.mk ⟨["a"], ["b"]⟩ (.ok ())]
        [JobSpec.mk ⟨["a"], ["b"]⟩ (.ok ())] [] []).inflightCount
      ≤ concurrencyLimit ∧
    (ExecState.running [] [JobSpec.mk ⟨["a"], ["b"]⟩ (.ok ())]
        [JobSpec.mk ⟨["a"], ["b"]⟩ (.ok ())] [] []).startedJobs
      <+: [JobSpec.mk ⟨["a"], ["b"]⟩ (.ok ())] :=
  run_concurrency_bound [JobSpec.mk ⟨["a"], ["b"]⟩ (.ok ())] [] _
    (ExecReaches.step (ExecReaches.refl _))

/-- Claim C6, counterexample: a failing run is logged but the process
still exits with status 0 — not the non-zero status the claim requires. -/
theorem main_exits_zero_on_error :
    mainModel (.error "job failed") = (0, ["job failed"]) ∧
      (mainModel (.error "job failed")).1 = 0 :=
  ⟨rfl, rfl⟩

/-- Claim C6 as amended: on any unrecovered failure the process logs the
error but exits with status 0 all the same, and on success it exits 0
with nothing logged — the exit status never distinguishes failure. -/
theorem main_exit_code (r : Except String Unit) :
    (mainModel r).1 = 0 ∧ (∀ e, r = .error e → (mainModel r).2 = [e]) ∧
      (r = .ok () → (mainModel r).2 = []) := by
  refine ⟨?_, ?_, ?_⟩
  · cases r <;> rfl
  · intro e he
    subst he
    rfl
  · intro h0
    subst h0
    rfl

/-- Witness for the amended C6: a concrete failing run exits 0 and logs
the error. -/
theorem main_exit_code_w :
    (mainModel (.error "network failure")).1 = 0 ∧
      (mainModel (.error "network failure")).2 = ["network failure"] :=
  ⟨(main_exit_code (.error "network failure")).1,
    (main_exit_code (.error "network failure")).2.1 "network failure" rfl⟩

/-- Claim C7: when the destination root already exists,
`Job::from_folder` fails with the directory-creation error, leaves the
filesystem state unchanged, and constructs no job. -/
theorem from_folder_dest_exists_fails (st : PlanState) (D : Nat)
    (h : st.destExists = true) :
    Job.from_folder st D = (st, .error .createDirFailed) ∧
    ∀ jobs : List Job, (Job.from_folder st D).2 ≠ .ok jobs := by
  have h1 : Job.from_folder st D = (st, .error .createDirFailed) := by
    simp [Job.from_folder, h]
  refine ⟨h1, fun jobs hc => ?_⟩
  rw [h1] at hc
  cases hc

/-- Witness for C7: planning over an existing destination root fails even
though the source root is perfectly readable. -/
theorem from_folder_dest_exists_fails_w :
    Job.from_folder ⟨true, some [.file "a.rnote"], ["r"], ["out"]⟩ 1
        = (⟨true, some [.file "a.rnote"], ["r"], ["out"]⟩,
            .error .createDirFailed) ∧
      ∀ jobs : List Job,
        (Job.from_folder ⟨true, some [.file "a.rnote"], ["r"], ["out"]⟩ 1).2
          ≠ .ok jobs :=
  from_folder_dest_exists_fails ⟨true, some [.file "a.rnote"], ["r"], ["out"]⟩ 1 rfl

/-- Claim C8: with `skip_existing` set and the destination reported as
already present, `execute_job` finishes successfully immediately: no
render call, no remote conversion, no persist — the call list is empty. -/
theorem execute_job_skips_existing (env : JobEnv) (job : Job)
    (h : env.destExists = true) :
    execute_job true env job = (.ok (), []) := by
  simp [execute_job, h]

/-- Witness for C8: the destination exists and every collaborator would
fail if invoked, yet the job is skipped successfully with no calls. -/
theorem execute_job_skips_existing_w :
    execute_job true ⟨true, .error "render", .error "net", .error "io"⟩
      ⟨["r", "a.rnote"], ["out", "a.md"]⟩ = (.ok (), []) :=
  execute_job_skips_existing ⟨true, .error "render", .error "net", .error "io"⟩
    ⟨["r", "a.rnote"], ["out", "a.md"]⟩ rfl

/-- Claim C10: `create_dir(output_folder)` runs before the source root is
canonicalized or opened, so when the destination root is freshly created
and the source step then fails, planning returns the canonicalization
error while the state it leaves behind keeps the newly created
destination root. -/
theorem from_folder_not_atomic (st : PlanState) (D : Nat)
    (h1 : st.destExists = false) (h2 : st.source = none) :
    Job.from_folder st D
        = ({ st with destExists := true }, .error .canonicalizeFailed) ∧
      ((Job.from_folder st D).1).destExists = true := by
  have h3 : Job.from_folder st D
      = ({ st with destExists := true }, .error .canonicalizeFailed) := by
    simp [Job.from_folder, h1, h2]
  exact ⟨h3, by rw [h3]⟩

/-- Witness for C10: a fresh destination root with an unreadable source
root — planning errors but the created destination root remains. -/
theorem from_folder_not_atomic_w :
    Job.from_folder ⟨false, none, ["r"], ["out"]⟩ 1
        = (⟨true, none, ["r"], ["out"]⟩, .error .canonicalizeFailed) ∧
      ((Job.from_folder ⟨false, none, ["r"], ["out"]⟩ 1).1).destExists = true :=
  from_folder_not_atomic ⟨false, none, ["r"], ["out"]⟩ 1 rfl rfl

end RnoteLlm
